import Mathlib

/-!
Shallow embedding of the `packed-colony` Rust crate (`src/lib.rs`).

The crate implements a packed associative container: a `ColonyIndex`
maintaining the bidirectional maps `id_to_index : Vec<usize>` (with
`usize::MAX` as the tombstone sentinel), `index_to_id : Vec<usize>`, and a
free-list `freed : Vec<usize>` used as a stack, plus the `Colony<T>` facade
pairing a `ColonyIndex` with a packed element buffer `elements : Vec<T>`.

Modelling conventions:
* `usize` values are `Nat`; the tombstone sentinel `std::usize::MAX` is the
  constant `USIZE_MAX = 2 ^ 64 - 1`.
* `Vec<usize>` / `Vec<T>` are Lean `List`s in the same element order, with
  one exception: `freed` is stored most-recent-first (the list head is the
  top of the Rust stack, i.e. the end of the Rust `Vec`), so `Vec::push` is
  `List.cons` and `Vec::pop` takes the head.
* Operations that can panic (indexing a `Vec` out of bounds via `[]` or
  `swap_remove`, and the debug-checked underflow of `elements.len() - 1` on
  an empty buffer) are modelled in `Option`, `none` meaning a panic.
-/

/-- Sentinel value used by the source as the tombstone: `std::usize::MAX`,
i.e. 2 ^ 64 - 1 on a 64-bit machine, written as a literal. -/
def USIZE_MAX : Nat := 18446744073709551615

/-- Fallible indexed write, modelling `v[i] = x` on a Rust `Vec` (panics,
i.e. `none`, when `i` is out of bounds). -/
def setF (l : List α) (i : Nat) (v : α) : Option (List α) :=
  if i < l.length then some (l.set i v) else none

/-- Fallible swap-remove, modelling `Vec::swap_remove(i)`: the last element
is moved into position `i` and the vector shrinks by one; panics (`none`)
when `i` is out of bounds (in particular on an empty vector). -/
def swapRemoveF (l : List α) (i : Nat) : Option (List α) :=
  match l.getLast? with
  | none => none
  | some last => if i < l.length then some ((l.set i last).dropLast) else none

/-- State of `ColonyIndex` (src/lib.rs): the two parallel lookup tables and
the free-list stack of retired identifiers (head = most recently freed). -/
structure ColonyIndex where
  id_to_index : List Nat
  index_to_id : List Nat
  freed : List Nat
deriving DecidableEq, Repr

/-- ColonyIndex::default(): all three vectors empty. -/
def ColonyIndex.empty : ColonyIndex := ⟨[], [], []⟩

/-- ColonyIndex::insert: reuse a freed identifier when available (writing
both tables in place), otherwise issue a fresh identifier equal to
`id_to_index.len()` and append to both tables.  The in-place writes are
fallible (`Vec` indexing). -/
def ColonyIndex.insert (c : ColonyIndex) (index : Nat) : Option (Nat × ColonyIndex) :=
  match c.freed with
  | id :: rest =>
    match setF c.id_to_index id index, setF c.index_to_id index id with
    | some a, some b => some (id, ⟨a, b, rest⟩)
    | _, _ => none
  | [] =>
    let id := c.id_to_index.length
    some (id, ⟨c.id_to_index ++ [index], c.index_to_id ++ [id], []⟩)

/-- ColonyIndex::to_index: checked resolution,
`*id_to_index.get(id).unwrap_or(&usize::MAX)` compared with the sentinel. -/
def ColonyIndex.to_index (c : ColonyIndex) (id : Nat) : Option Nat :=
  let index := (c.id_to_index[id]?).getD USIZE_MAX
  if index == USIZE_MAX then none else some index

/-- ColonyIndex::to_index_unchecked: raw `id_to_index[id]` (panics out of
bounds, modelled as `none`). -/
def ColonyIndex.to_index_unchecked (c : ColonyIndex) (id : Nat) : Option Nat :=
  c.id_to_index[id]?

/-- ColonyIndex::remove: resolve the target (early `None` on tombstone or
out-of-range, with the state unchanged), read the identifier occupying
`last_index`, tombstone the target, re-point the last identifier at the
vacated slot, update `index_to_id`, and push the target on `freed`.  The
outer `Option` is the panic monad; the inner `Option Nat` is the source's
return value. -/
def ColonyIndex.remove (c : ColonyIndex) (target_id last_index : Nat) :
    Option (Option Nat × ColonyIndex) :=
  let target_index := (c.id_to_index[target_id]?).getD USIZE_MAX
  if target_index == USIZE_MAX then some (none, c)
  else
    match c.index_to_id[last_index]? with
    | none => none
    | some last_id =>
      match setF c.id_to_index target_id USIZE_MAX with
      | none => none
      | some a1 =>
        match setF a1 last_id target_index with
        | none => none
        | some a2 =>
          match setF c.index_to_id target_index last_id with
          | none => none
          | some b =>
            some (some target_index, ⟨a2, b, target_id :: c.freed⟩)

/-- State of `Colony<T>`: a `ColonyIndex` plus the packed element buffer. -/
structure Colony (T : Type) where
  index : ColonyIndex
  elements : List T
deriving DecidableEq, Repr

/-- Colony::default() / Colony::new(): empty index, empty buffer. -/
def Colony.empty {T : Type} : Colony T := ⟨ColonyIndex.empty, []⟩

/-- Colony::insert: `index.insert(elements.len())` then push the value. -/
def Colony.insert (c : Colony T) (entity : T) : Option (Nat × Colony T) :=
  match c.index.insert c.elements.length with
  | none => none
  | some (id, idx) => some (id, ⟨idx, c.elements ++ [entity]⟩)

/-- Colony::get: checked resolution through `to_index` followed by the
checked buffer access `elements.get(index)`.  Total: never panics. -/
def Colony.get (c : Colony T) (id : Nat) : Option T :=
  match c.index.to_index id with
  | some index => c.elements[index]?
  | none => none

/-- Colony::get_mut: same resolution path as `get` (the element the
returned mutable reference would point at). Total: never panics. -/
def Colony.get_mut (c : Colony T) (id : Nat) : Option T :=
  match c.index.to_index id with
  | some index => c.elements[index]?
  | none => none

/-- Colony::remove: `index.remove(id, elements.len() - 1)` followed by
`elements.swap_remove(index)` when a slot is reported.  The subtraction
`elements.len() - 1` underflows on an empty buffer (a panic under the
overflow checks of debug and fuzzing builds; see C3), modelled as `none`. -/
def Colony.remove (c : Colony T) (id : Nat) : Option (Colony T) :=
  if c.elements.length = 0 then none
  else
    match c.index.remove id (c.elements.length - 1) with
    | none => none
    | some (some index, idx) =>
      match swapRemoveF c.elements index with
      | none => none
      | some els => some ⟨idx, els⟩
    | some (none, idx) => some ⟨idx, c.elements⟩

/-- Colony::clear: replace the index with `ColonyIndex::default()` and
clear the buffer. -/
def Colony.clear (_c : Colony T) : Colony T := ⟨ColonyIndex.empty, []⟩

/-- Colony::len (via the `Deref` to a slice): the packed buffer length. -/
def Colony.len (c : Colony T) : Nat := c.elements.length

/-- Mutating operations of the public `Colony` API. -/
inductive Op (T : Type) where
  | insert (v : T)
  | remove (id : Nat)
deriving DecidableEq, Repr

/-- Apply one public operation; `none` means the call panicked. -/
def applyOp (c : Colony T) : Op T → Option (Colony T)
  | .insert v => (c.insert v).map Prod.snd
  | .remove id => c.remove id

/-- Run a list of public operations left to right, stopping on a panic. -/
def runOps (c : Colony T) : List (Op T) → Option (Colony T)
  | [] => some c
  | op :: rest =>
    match applyOp c op with
    | none => none
    | some c' => runOps c' rest

/-- Reachability through the public API: states produced from the empty
colony by some panic-free sequence of `insert`/`remove` calls whose length
fits the machine (fewer than `usize::MAX` operations, so the identifier
space cannot be exhausted — on a 64-bit machine a longer program cannot
run). -/
def Reachable (c : Colony T) : Prop :=
  ∃ ops : List (Op T), ops.length < USIZE_MAX ∧ runOps Colony.empty ops = some c

/-- Number of identifiers ever issued (the length of `id_to_index`). -/
def issued (c : Colony T) : Nat := c.index.id_to_index.length

/-- Core structural invariant of a `Colony`, maintained by every panic-free
public operation.  `freed_spec` records the consequence of the write order
in `ColonyIndex::remove`: an identifier freed while it occupied the last
slot is not tombstoned — its stale entry equals `elements.length + k`,
where `k` is its depth from the top of the `freed` stack. -/
structure InvCore (c : Colony T) : Prop where
  len_eq : c.index.index_to_id.length = c.index.id_to_index.length
  count : c.elements.length + c.index.freed.length = c.index.id_to_index.length
  freed_lt : ∀ f ∈ c.index.freed, f < c.index.id_to_index.length
  freed_nodup : c.index.freed.Nodup
  freed_spec : ∀ k f, c.index.freed[k]? = some f →
    c.index.id_to_index[f]? = some USIZE_MAX ∨
    c.index.id_to_index[f]? = some (c.elements.length + k)
  live_spec : ∀ id, id < c.index.id_to_index.length → id ∉ c.index.freed →
    ∃ s, c.index.id_to_index[id]? = some s ∧ s < c.elements.length ∧
      c.index.index_to_id[s]? = some id
  occ_spec : ∀ s, s < c.elements.length →
    ∃ id, c.index.index_to_id[s]? = some id ∧ id ∉ c.index.freed ∧
      c.index.id_to_index[id]? = some s

/-- Full invariant: the core invariant plus the machine-width bound (the
identifier space is not exhausted, so no table length collides with the
`usize::MAX` sentinel). -/
def ColonyInv (c : Colony T) : Prop :=
  InvCore c ∧ c.index.id_to_index.length < USIZE_MAX

/-- Number of currently-live identifiers, in the sense of the spec: issued,
not tombstoned, and not sitting in the free list. -/
def numLive (ci : ColonyIndex) : Nat :=
  ((Finset.range ci.id_to_index.length).filter
    (fun id => (ci.to_index id).isSome = true ∧ id ∉ ci.freed)).card

theorem setF_some {l : List α} {i : Nat} {v : α} (h : i < l.length) :
    setF l i v = some (l.set i v) := by
  simp [setF, h]

theorem swapRemoveF_some {l : List α} {i : Nat} {last : α}
    (hl : l[l.length - 1]? = some last) (h : i < l.length) :
    swapRemoveF l i = some ((l.set i last).dropLast) := by
  unfold swapRemoveF
  rw [List.getLast?_eq_getElem?, hl]
  simp [h]

theorem swapRemoveF_none {l : List α} {i : Nat} (h : l.length ≤ i) :
    swapRemoveF l i = none := by
  unfold swapRemoveF
  cases l.getLast? <;> simp [Nat.not_lt.mpr h]

theorem ColonyIndex.to_index_eq_some {ci : ColonyIndex} {id s : Nat} :
    ci.to_index id = some s ↔ ci.id_to_index[id]? = some s ∧ s ≠ USIZE_MAX := by
  unfold ColonyIndex.to_index
  cases h : ci.id_to_index[id]? with
  | none => simp
  | some t =>
    by_cases ht : t = USIZE_MAX <;>
      simp [ht, Option.getD] <;> omega

theorem ColonyIndex.to_index_eq_none {ci : ColonyIndex} {id : Nat} :
    ci.to_index id = none ↔
      ci.id_to_index[id]? = none ∨ ci.id_to_index[id]? = some USIZE_MAX := by
  unfold ColonyIndex.to_index
  cases h : ci.id_to_index[id]? with
  | none => simp
  | some t =>
    by_cases ht : t = USIZE_MAX <;> simp [ht, Option.getD]

theorem Colony.get_eq_some {c : Colony T} {id : Nat} {v : T} :
    c.get id = some v ↔
      ∃ s, c.index.to_index id = some s ∧ c.elements[s]? = some v := by
  unfold Colony.get
  cases h : c.index.to_index id <;> simp

theorem get_entry {c : Colony T} {y : Nat} {w : T} (h : c.get y = some w) :
    ∃ s, c.index.id_to_index[y]? = some s ∧ s ≠ USIZE_MAX ∧
      s < c.elements.length ∧ c.elements[s]? = some w := by
  obtain ⟨s, hti, hel⟩ := Colony.get_eq_some.mp h
  obtain ⟨hentry, hs⟩ := ColonyIndex.to_index_eq_some.mp hti
  exact ⟨s, hentry, hs, (List.getElem?_eq_some_iff.mp hel).1, hel⟩

theorem get_of_entry {c : Colony T} {y : Nat} (s : Nat) {w : T}
    (hentry : c.index.id_to_index[y]? = some s) (hsMax : s ≠ USIZE_MAX)
    (hel : c.elements[s]? = some w) : c.get y = some w := by
  have hti : c.index.to_index y = some s :=
    ColonyIndex.to_index_eq_some.mpr ⟨hentry, hsMax⟩
  simp [Colony.get, hti, hel]

theorem not_freed_of_get {c : Colony T} (hc : InvCore c) {y : Nat} {w : T}
    (h : c.get y = some w) : y ∉ c.index.freed := by
  intro hy
  obtain ⟨s, hentry, hsMax, hlt, _⟩ := get_entry h
  obtain ⟨k, hk⟩ := List.getElem?_of_mem hy
  rcases hc.freed_spec k y hk with h1 | h1 <;> rw [hentry] at h1 <;>
    simp only [Option.some.injEq] at h1 <;> omega

theorem live_of_get {c : Colony T} (hc : InvCore c) {y : Nat} {w : T}
    (h : c.get y = some w) :
    ∃ s, c.index.id_to_index[y]? = some s ∧ s < c.elements.length ∧
      c.index.index_to_id[s]? = some y ∧ c.elements[s]? = some w := by
  obtain ⟨s, hentry, _, hlt, hel⟩ := get_entry h
  have hf := not_freed_of_get hc h
  have hyN : y < c.index.id_to_index.length := (List.getElem?_eq_some_iff.mp hentry).1
  obtain ⟨s2, he2, hlt2, hback⟩ := hc.live_spec y hyN hf
  rw [hentry] at he2
  obtain rfl : s = s2 := Option.some.inj he2
  exact ⟨s, hentry, hlt, hback, hel⟩


theorem insert_sound {T : Type} {c : Colony T} (v : T)
    (hc : InvCore c) (hb : c.index.id_to_index.length < USIZE_MAX) :
    ∃ id c', c.insert v = some (id, c') ∧ InvCore c' ∧
      c'.index.id_to_index.length ≤ c.index.id_to_index.length + 1 ∧
      c'.elements.length = c.elements.length + 1 ∧
      c'.get id = some v ∧
      ∀ y w, c.get y = some w → c'.get y = some w := by
  rcases hfreed : c.index.freed with _ | ⟨f, rest⟩
  · -- fresh-identifier path: freed is empty, both tables are appended to
    have hnN : c.elements.length = c.index.id_to_index.length := by
      have := hc.count
      rw [hfreed] at this
      simpa using this
    have hBN : c.index.index_to_id.length = c.index.id_to_index.length := hc.len_eq
    refine ⟨c.index.id_to_index.length,
      ⟨⟨c.index.id_to_index ++ [c.elements.length],
        c.index.index_to_id ++ [c.index.id_to_index.length], []⟩,
       c.elements ++ [v]⟩, ?_, ?_, ?_, ?_, ?_, ?_⟩
    · simp [Colony.insert, ColonyIndex.insert, hfreed]
    · refine ⟨?_, ?_, ?_, ?_, ?_, ?_, ?_⟩
      · simp [hBN]
      · simp [hnN]
      · simp
      · simp
      · intro k g hk
        simp at hk
      · intro id hidN _
        simp only [List.length_append, List.length_cons, List.length_nil] at hidN
        by_cases hid : id = c.index.id_to_index.length
        · subst hid
          refine ⟨c.elements.length, ?_, ?_, ?_⟩
          · exact List.getElem?_concat_length _ _
          · simp
          · rw [show c.elements.length = c.index.index_to_id.length from by omega]
            exact List.getElem?_concat_length _ _
        · have hidN2 : id < c.index.id_to_index.length := by omega
          obtain ⟨s, hA, hs, hB⟩ := hc.live_spec id hidN2 (by rw [hfreed]; simp)
          refine ⟨s, ?_, ?_, ?_⟩
          · rw [List.getElem?_append_left hidN2]
            exact hA
          · simp
            omega
          · rw [List.getElem?_append_left (by omega)]
            exact hB
      · intro s hs
        simp only [List.length_append, List.length_cons, List.length_nil] at hs
        by_cases hsn : s = c.elements.length
        · subst hsn
          refine ⟨c.index.id_to_index.length, ?_, ?_, ?_⟩
          · rw [show c.elements.length = c.index.index_to_id.length from by omega]
            exact List.getElem?_concat_length _ _
          · simp
          · exact List.getElem?_concat_length _ _
        · have hslt : s < c.elements.length := by omega
          obtain ⟨id, hB, hidF, hA⟩ := hc.occ_spec s hslt
          have hidN : id < c.index.id_to_index.length :=
            (List.getElem?_eq_some_iff.mp hA).1
          refine ⟨id, ?_, ?_, ?_⟩
          · rw [List.getElem?_append_left (by omega)]
            exact hB
          · simp
          · rw [List.getElem?_append_left hidN]
            exact hA
    · simp
    · simp
    · refine get_of_entry c.elements.length ?_ ?_ ?_
      · exact List.getElem?_concat_length _ _
      · show c.elements.length ≠ USIZE_MAX
        omega
      · show (c.elements ++ [v])[c.elements.length]? = some v
        exact List.getElem?_concat_length _ _
    · intro y w hy
      obtain ⟨s, hA, hs, hB, hel⟩ := live_of_get hc hy
      obtain ⟨s2, hA2, hsMax, _, _⟩ := get_entry hy
      rw [hA] at hA2
      obtain rfl : s = s2 := Option.some.inj hA2
      refine get_of_entry s ?_ hsMax ?_
      · show (c.index.id_to_index ++ [c.elements.length])[y]? = some s
        rw [List.getElem?_append_left (List.getElem?_eq_some_iff.mp hA).1]
        exact hA
      · show (c.elements ++ [v])[s]? = some w
        rw [List.getElem?_append_left hs]
        exact hel
  · -- reuse path: pop `f` from the free list and overwrite both tables
    have hmemf : f ∈ c.index.freed := by rw [hfreed]; exact List.mem_cons_self f rest
    have hfN : f < c.index.id_to_index.length := hc.freed_lt f hmemf
    have hcount : c.elements.length + (rest.length + 1) = c.index.id_to_index.length := by
      have := hc.count
      rw [hfreed] at this
      simpa using this
    have hnM : c.elements.length < c.index.index_to_id.length := by
      have := hc.len_eq
      omega
    have h1 : setF c.index.id_to_index f c.elements.length =
        some (c.index.id_to_index.set f c.elements.length) := setF_some hfN
    have h2 : setF c.index.index_to_id c.elements.length f =
        some (c.index.index_to_id.set c.elements.length f) := setF_some hnM
    have hfnotrest : f ∉ rest := by
      have := hc.freed_nodup
      rw [hfreed] at this
      exact (List.nodup_cons.mp this).1
    refine ⟨f, ⟨⟨c.index.id_to_index.set f c.elements.length,
      c.index.index_to_id.set c.elements.length f, rest⟩, c.elements ++ [v]⟩,
      ?_, ?_, ?_, ?_, ?_, ?_⟩
    · simp [Colony.insert, ColonyIndex.insert, hfreed, h1, h2]
    · refine ⟨?_, ?_, ?_, ?_, ?_, ?_, ?_⟩
      · simp [hc.len_eq]
      · simp
        omega
      · intro g hg
        have : g < c.index.id_to_index.length :=
          hc.freed_lt g (by rw [hfreed]; exact List.mem_cons_of_mem f hg)
        simpa using this
      · have := hc.freed_nodup
        rw [hfreed] at this
        exact this.of_cons
      · intro k g hk
        have hgrest : g ∈ rest := by
          obtain ⟨hklt, hge⟩ := List.getElem?_eq_some_iff.mp hk
          exact hge ▸ List.getElem_mem hklt
        have hgf : g ≠ f := fun h => hfnotrest (h ▸ hgrest)
        have hkold : c.index.freed[k + 1]? = some g := by simp [hfreed, hk]
        rcases hc.freed_spec (k + 1) g hkold with h3 | h3
        · left
          show (c.index.id_to_index.set f c.elements.length)[g]? = some USIZE_MAX
          rw [List.getElem?_set_ne (fun h => hgf h.symm)]
          exact h3
        · right
          show (c.index.id_to_index.set f c.elements.length)[g]? =
            some ((c.elements ++ [v]).length + k)
          rw [List.getElem?_set_ne (fun h => hgf h.symm), h3]
          simp only [List.length_append, List.length_cons, List.length_nil,
            Option.some.injEq]
          omega
      · intro id hidN hidrest
        simp only [List.length_set] at hidN
        by_cases hid : id = f
        · subst hid
          refine ⟨c.elements.length, ?_, ?_, ?_⟩
          · exact List.getElem?_set_self hfN
          · simp
          · exact List.getElem?_set_self hnM
        · have hidF : id ∉ c.index.freed := by
            rw [hfreed]
            simp [hid, hidrest]
          obtain ⟨s, hA, hs, hB⟩ := hc.live_spec id hidN hidF
          refine ⟨s, ?_, ?_, ?_⟩
          · rw [List.getElem?_set_ne (fun h => hid h.symm)]
            exact hA
          · simp
            omega
          · rw [List.getElem?_set_ne (by omega)]
            exact hB
      · intro s hs
        simp only [List.length_append, List.length_cons, List.length_nil] at hs
        by_cases hsn : s = c.elements.length
        · subst hsn
          refine ⟨f, ?_, ?_, ?_⟩
          · exact List.getElem?_set_self hnM
          · exact hfnotrest
          · exact List.getElem?_set_self hfN
        · have hslt : s < c.elements.length := by omega
          obtain ⟨id, hB, hidF, hA⟩ := hc.occ_spec s hslt
          have hidf : id ≠ f := fun h => hidF (h ▸ hmemf)
          refine ⟨id, ?_, ?_, ?_⟩
          · rw [List.getElem?_set_ne (fun h => hsn h.symm)]
            exact hB
          · intro h
            exact hidF (by rw [hfreed]; exact List.mem_cons_of_mem f h)
          · rw [List.getElem?_set_ne (fun h => hidf h.symm)]
            exact hA
    · simp
    · simp
    · refine get_of_entry c.elements.length ?_ ?_ ?_
      · exact List.getElem?_set_self hfN
      · show c.elements.length ≠ USIZE_MAX
        omega
      · show (c.elements ++ [v])[c.elements.length]? = some v
        exact List.getElem?_concat_length _ _
    · intro y w hy
      obtain ⟨s, hA, hs, hB, hel⟩ := live_of_get hc hy
      obtain ⟨s2, hA2, hsMax, _, _⟩ := get_entry hy
      rw [hA] at hA2
      obtain rfl : s = s2 := Option.some.inj hA2
      have hyF : y ∉ c.index.freed := not_freed_of_get hc hy
      have hyf : y ≠ f := fun h => hyF (h ▸ hmemf)
      refine get_of_entry s ?_ hsMax ?_
      · show (c.index.id_to_index.set f c.elements.length)[y]? = some s
        rw [List.getElem?_set_ne (fun h => hyf h.symm)]
        exact hA
      · show (c.elements ++ [v])[s]? = some w
        rw [List.getElem?_append_left hs]
        exact hel

theorem remove_sound {T : Type} {c : Colony T} {x : Nat} {c' : Colony T}
    (hc : InvCore c) (hb : c.index.id_to_index.length < USIZE_MAX)
    (hrem : c.remove x = some c') :
    InvCore c' ∧ c'.index.id_to_index.length = c.index.id_to_index.length ∧
      ∀ y w, y ≠ x → c.get y = some w → c'.get y = some w := by
  by_cases hn : c.elements.length = 0
  · rw [Colony.remove, if_pos hn] at hrem
    exact absurd hrem (by simp)
  rw [Colony.remove, if_neg hn] at hrem
  cases hA : c.index.id_to_index[x]? with
  | none =>
    have hearly : c.index.remove x (c.elements.length - 1) = some (none, c.index) := by
      simp [ColonyIndex.remove, hA]
    simp only [hearly, Option.some.injEq] at hrem
    subst hrem
    exact ⟨hc, rfl, fun y w _ hy => hy⟩
  | some t =>
    by_cases ht : t = USIZE_MAX
    · subst ht
      have hearly : c.index.remove x (c.elements.length - 1) = some (none, c.index) := by
        simp [ColonyIndex.remove, hA]
      simp only [hearly, Option.some.injEq] at hrem
      subst hrem
      exact ⟨hc, rfl, fun y w _ hy => hy⟩
    · have hxN : x < c.index.id_to_index.length := (List.getElem?_eq_some_iff.mp hA).1
      have hnN : c.elements.length ≤ c.index.id_to_index.length := by
        have := hc.count
        omega
      have hBN : c.index.index_to_id.length = c.index.id_to_index.length := hc.len_eq
      obtain ⟨last_id, hBlast, hlastF, hAlast⟩ :=
        hc.occ_spec (c.elements.length - 1) (by omega)
      have hlastN : last_id < c.index.id_to_index.length :=
        (List.getElem?_eq_some_iff.mp hAlast).1
      have hs1 : setF c.index.id_to_index x USIZE_MAX =
          some (c.index.id_to_index.set x USIZE_MAX) := setF_some hxN
      have hs2 : setF (c.index.id_to_index.set x USIZE_MAX) last_id t =
          some ((c.index.id_to_index.set x USIZE_MAX).set last_id t) :=
        setF_some (by simpa using hlastN)
      by_cases htB : t < c.index.index_to_id.length
      · have hs3 : setF c.index.index_to_id t last_id =
            some (c.index.index_to_id.set t last_id) := setF_some htB
        have hstep : c.index.remove x (c.elements.length - 1) =
            some (some t, ⟨(c.index.id_to_index.set x USIZE_MAX).set last_id t,
              c.index.index_to_id.set t last_id, x :: c.index.freed⟩) := by
          simp [ColonyIndex.remove, hA, ht, hBlast, hs1, hs2, hs3]
        simp only [hstep] at hrem
        by_cases htn : t < c.elements.length
        · obtain ⟨last, hlastel⟩ : ∃ w, c.elements[c.elements.length - 1]? = some w := by
            have h := @List.getElem?_eq_getElem T c.elements
              (c.elements.length - 1) (by omega)
            exact ⟨_, h⟩
          have hswap : swapRemoveF c.elements t =
              some ((c.elements.set t last).dropLast) := swapRemoveF_some hlastel htn
          simp only [hswap, Option.some.injEq] at hrem
          subst hrem
          -- the target is live-proper: its slot is < length, so it is not freed
          have hxF : x ∉ c.index.freed := by
            intro hxf
            obtain ⟨k, hk⟩ := List.getElem?_of_mem hxf
            rcases hc.freed_spec k x hk with h1 | h1 <;> rw [hA] at h1 <;>
              simp only [Option.some.injEq] at h1 <;> omega
          obtain ⟨t2, hA2, ht2n, hBt⟩ := hc.live_spec x hxN hxF
          rw [hA] at hA2
          obtain rfl : t = t2 := Option.some.inj hA2
          by_cases hteq : t = c.elements.length - 1
          · -- removing the element in the last slot: last_id = x
            have hlx : last_id = x := by
              rw [hteq] at hBt
              rw [hBt] at hBlast
              exact (Option.some.inj hBlast).symm
            subst hlx
            rw [List.set_set] at *
            refine ⟨?_, by simp, ?_⟩
            · refine ⟨?_, ?_, ?_, ?_, ?_, ?_, ?_⟩
              · simp [hBN]
              · have := hc.count
                simp only [List.length_dropLast, List.length_set, List.length_cons]
                omega
              · intro g hg
                rcases List.mem_cons.mp hg with rfl | hg2
                · simpa using hxN
                · simpa using hc.freed_lt g hg2
              · exact List.nodup_cons.mpr ⟨hxF, hc.freed_nodup⟩
              · intro k g hk
                match k, hk with
                | 0, hk =>
                  have hg : last_id = g := by simpa using hk
                  subst hg
                  right
                  rw [List.getElem?_set_self hxN]
                  simp
                  omega
                | k + 1, hk =>
                  have hkF : c.index.freed[k]? = some g := by simpa using hk
                  have hgF : g ∈ c.index.freed := by
                    obtain ⟨hklt, hge⟩ := List.getElem?_eq_some_iff.mp hkF
                    exact hge ▸ List.getElem_mem hklt
                  have hgx : g ≠ last_id := fun h => hxF (h ▸ hgF)
                  rcases hc.freed_spec k g hkF with h1 | h1
                  · left
                    rw [List.getElem?_set_ne (fun h => hgx h.symm)]
                    exact h1
                  · right
                    rw [List.getElem?_set_ne (fun h => hgx h.symm), h1]
                    simp only [List.length_dropLast, List.length_set,
                      Option.some.injEq]
                    omega
              · intro id hidN hidF2
                simp only [List.length_set] at hidN
                have hidx : id ≠ last_id := fun h => hidF2 (h ▸ List.mem_cons_self _ _)
                have hidF : id ∉ c.index.freed := fun h =>
                  hidF2 (List.mem_cons_of_mem _ h)
                obtain ⟨s, hA_id, hs, hB_id⟩ := hc.live_spec id hidN hidF
                have hsne : s ≠ c.elements.length - 1 := by
                  intro h
                  rw [h, hBlast] at hB_id
                  exact hidx (Option.some.inj hB_id).symm
                refine ⟨s, ?_, ?_, ?_⟩
                · rw [List.getElem?_set_ne (fun h => hidx h.symm)]
                  exact hA_id
                · simp
                  omega
                · rw [List.getElem?_set_ne (by omega)]
                  exact hB_id
              · intro s hs
                simp only [List.length_dropLast, List.length_set] at hs
                obtain ⟨id, hB_s, hidF, hA_id⟩ := hc.occ_spec s (by omega)
                have hidx : id ≠ last_id := by
                  intro h
                  rw [h, hA] at hA_id
                  have := Option.some.inj hA_id
                  omega
                refine ⟨id, ?_, ?_, ?_⟩
                · rw [List.getElem?_set_ne (by omega)]
                  exact hB_s
                · simp [hidx, hidF]
                · rw [List.getElem?_set_ne (fun h => hidx h.symm)]
                  exact hA_id
            · intro y w hyx hy
              obtain ⟨s, hA_y, hsy, hB_y, hel_y⟩ := live_of_get hc hy
              obtain ⟨s2, hA_y2, hsMax, _, _⟩ := get_entry hy
              rw [hA_y] at hA_y2
              obtain rfl : s = s2 := Option.some.inj hA_y2
              have hsne : s ≠ c.elements.length - 1 := by
                intro h
                rw [h, hBlast] at hB_y
                exact hyx (Option.some.inj hB_y).symm
              refine get_of_entry s ?_ hsMax ?_
              · show (c.index.id_to_index.set last_id t)[y]? = some s
                rw [List.getElem?_set_ne (fun h => hyx h.symm)]
                exact hA_y
              · show ((c.elements.set t last).dropLast)[s]? = some w
                rw [List.getElem?_dropLast]
                simp only [List.length_set]
                rw [if_pos (by omega), List.getElem?_set_ne (by omega)]
                exact hel_y
          · -- removing from the middle: the last element is re-pointed
            have hlx : last_id ≠ x := by
              intro h
              rw [h, hA] at hAlast
              exact hteq (Option.some.inj hAlast)
            have htn1 : t < c.elements.length - 1 := by omega
            refine ⟨?_, by simp, ?_⟩
            · refine ⟨?_, ?_, ?_, ?_, ?_, ?_, ?_⟩
              · simp [hBN]
              · have := hc.count
                simp only [List.length_dropLast, List.length_set, List.length_cons]
                omega
              · intro g hg
                rcases List.mem_cons.mp hg with rfl | hg2
                · simpa using hxN
                · simpa using hc.freed_lt g hg2
              · exact List.nodup_cons.mpr ⟨hxF, hc.freed_nodup⟩
              · intro k g hk
                match k, hk with
                | 0, hk =>
                  have hg : x = g := by simpa using hk
                  subst hg
                  left
                  rw [List.getElem?_set_ne (fun h => hlx h),
                    List.getElem?_set_self hxN]
                | k + 1, hk =>
                  have hkF : c.index.freed[k]? = some g := by simpa using hk
                  have hgF : g ∈ c.index.freed := by
                    obtain ⟨hklt, hge⟩ := List.getElem?_eq_some_iff.mp hkF
                    exact hge ▸ List.getElem_mem hklt
                  have hgx : g ≠ x := fun h => hxF (h ▸ hgF)
                  have hgl : g ≠ last_id := fun h => hlastF (h ▸ hgF)
                  rcases hc.freed_spec k g hkF with h1 | h1
                  · left
                    rw [List.getElem?_set_ne (fun h => hgl h.symm),
                      List.getElem?_set_ne (fun h => hgx h.symm)]
                    exact h1
                  · right
                    rw [List.getElem?_set_ne (fun h => hgl h.symm),
                      List.getElem?_set_ne (fun h => hgx h.symm), h1]
                    simp only [List.length_dropLast, List.length_set,
                      Option.some.injEq]
                    omega
              · intro id hidN hidF2
                simp only [List.length_set] at hidN
                have hidx : id ≠ x := fun h => hidF2 (h ▸ List.mem_cons_self _ _)
                have hidF : id ∉ c.index.freed := fun h =>
                  hidF2 (List.mem_cons_of_mem _ h)
                by_cases hidl : id = last_id
                · subst hidl
                  refine ⟨t, ?_, ?_, ?_⟩
                  · rw [List.getElem?_set_self (by simpa using hlastN)]
                  · simp
                    omega
                  · rw [List.getElem?_set_self htB]
                · obtain ⟨s, hA_id, hs, hB_id⟩ := hc.live_spec id hidN hidF
                  have hsne : s ≠ c.elements.length - 1 := by
                    intro h
                    rw [h, hBlast] at hB_id
                    exact hidl (Option.some.inj hB_id).symm
                  have hst : s ≠ t := by
                    intro h
                    rw [h, hBt] at hB_id
                    exact hidx (Option.some.inj hB_id).symm
                  refine ⟨s, ?_, ?_, ?_⟩
                  · rw [List.getElem?_set_ne (fun h => hidl h.symm),
                      List.getElem?_set_ne (fun h => hidx h.symm)]
                    exact hA_id
                  · simp
                    omega
                  · rw [List.getElem?_set_ne (fun h => hst (h.symm))]
                    exact hB_id
              · intro s hs
                simp only [List.length_dropLast, List.length_set] at hs
                by_cases hst : s = t
                · subst hst
                  refine ⟨last_id, ?_, ?_, ?_⟩
                  · rw [List.getElem?_set_self htB]
                  · simp [fun h => hlx h, hlastF]
                  · rw [List.getElem?_set_self (by simpa using hlastN)]
                · obtain ⟨id, hB_s, hidF, hA_id⟩ := hc.occ_spec s (by omega)
                  have hidx : id ≠ x := by
                    intro h
                    rw [h, hA] at hA_id
                    exact hst (Option.some.inj hA_id).symm
                  have hidl : id ≠ last_id := by
                    intro h
                    rw [h, hAlast] at hA_id
                    have := Option.some.inj hA_id
                    omega
                  refine ⟨id, ?_, ?_, ?_⟩
                  · rw [List.getElem?_set_ne (fun h => hst h.symm)]
                    exact hB_s
                  · simp [hidx, hidF]
                  · rw [List.getElem?_set_ne (fun h => hidl h.symm),
                      List.getElem?_set_ne (fun h => hidx h.symm)]
                    exact hA_id
            · intro y w hyx hy
              obtain ⟨s, hA_y, hsy, hB_y, hel_y⟩ := live_of_get hc hy
              obtain ⟨s2, hA_y2, hsMax, _, _⟩ := get_entry hy
              rw [hA_y] at hA_y2
              obtain rfl : s = s2 := Option.some.inj hA_y2
              by_cases hyl : y = last_id
              · subst hyl
                rw [hAlast] at hA_y
                obtain rfl : s = c.elements.length - 1 := (Option.some.inj hA_y).symm
                have hwl : last = w := by
                  rw [hlastel] at hel_y
                  exact Option.some.inj hel_y
                refine get_of_entry t ?_ ?_ ?_
                · show ((c.index.id_to_index.set x USIZE_MAX).set y t)[y]? = some t
                  rw [List.getElem?_set_self (by simpa using hlastN)]
                · omega
                · show ((c.elements.set t last).dropLast)[t]? = some w
                  rw [List.getElem?_dropLast]
                  simp only [List.length_set]
                  rw [if_pos (by omega), List.getElem?_set_self htn, hwl]
              · have hsne : s ≠ c.elements.length - 1 := by
                  intro h
                  rw [h, hBlast] at hB_y
                  exact hyl (Option.some.inj hB_y).symm
                have hst : s ≠ t := by
                  intro h
                  rw [h, hBt] at hB_y
                  exact hyx (Option.some.inj hB_y).symm
                refine get_of_entry s ?_ hsMax ?_
                · show ((c.index.id_to_index.set x USIZE_MAX).set last_id t)[y]? =
                    some s
                  rw [List.getElem?_set_ne (fun h => hyl h.symm),
                    List.getElem?_set_ne (fun h => hyx h.symm)]
                  exact hA_y
                · show ((c.elements.set t last).dropLast)[s]? = some w
                  rw [List.getElem?_dropLast]
                  simp only [List.length_set]
                  rw [if_pos (by omega), List.getElem?_set_ne (fun h => hst h.symm)]
                  exact hel_y
        · have hswap : swapRemoveF c.elements t = none :=
            swapRemoveF_none (by omega)
          rw [hswap] at hrem
          exact absurd hrem (by simp)
      · have hs3 : setF c.index.index_to_id t last_id = none := by
          simp [setF, htB]
        have hstep : c.index.remove x (c.elements.length - 1) = none := by
          simp [ColonyIndex.remove, hA, ht, hBlast, hs1, hs2, hs3]
        rw [hstep] at hrem
        exact absurd hrem (by simp)

theorem step_sound {T : Type} {c c' : Colony T} {op : Op T}
    (hc : InvCore c) (hb : c.index.id_to_index.length < USIZE_MAX)
    (hstep : applyOp c op = some c') :
    InvCore c' ∧ c'.index.id_to_index.length ≤ c.index.id_to_index.length + 1 ∧
      ∀ y w, (∀ j, op = Op.remove j → j ≠ y) →
        c.get y = some w → c'.get y = some w := by
  cases op with
  | insert v =>
    obtain ⟨id, c2, hins, hinv, hlen, _, _, hframe⟩ := insert_sound v hc hb
    simp only [applyOp, hins, Option.map_some', Option.some.injEq] at hstep
    subst hstep
    exact ⟨hinv, hlen, fun y w _ hy => hframe y w hy⟩
  | remove j =>
    obtain ⟨hinv, hlen, hframe⟩ := remove_sound hc hb hstep
    exact ⟨hinv, by omega, fun y w hny hy => hframe y w (Ne.symm (hny j rfl)) hy⟩

theorem run_sound {T : Type} :
    ∀ (ops : List (Op T)) (c c' : Colony T), InvCore c →
      c.index.id_to_index.length + ops.length ≤ USIZE_MAX →
      runOps c ops = some c' →
      InvCore c' ∧
        c'.index.id_to_index.length ≤ c.index.id_to_index.length + ops.length ∧
        ∀ y w, (∀ j, Op.remove j ∈ ops → j ≠ y) →
          c.get y = some w → c'.get y = some w := by
  intro ops
  induction ops with
  | nil =>
    intro c c' hc _ hrun
    simp only [runOps, Option.some.injEq] at hrun
    subst hrun
    exact ⟨hc, by omega, fun y w _ h => h⟩
  | cons op rest ih =>
    intro c c' hc hbound hrun
    simp only [runOps] at hrun
    cases hstep : applyOp c op with
    | none =>
      rw [hstep] at hrun
      exact absurd hrun (by simp)
    | some c1 =>
      rw [hstep] at hrun
      have hb : c.index.id_to_index.length < USIZE_MAX := by
        simp only [List.length_cons] at hbound
        omega
      obtain ⟨h1, hlen1, hframe1⟩ := step_sound hc hb hstep
      obtain ⟨h2, hlen2, hframe2⟩ := ih c1 c' h1
        (by simp only [List.length_cons] at hbound; omega) hrun
      refine ⟨h2, ?_, ?_⟩
      · simp only [List.length_cons]
        omega
      · intro y w hny hy
        refine hframe2 y w (fun j hj => hny j (List.mem_cons_of_mem _ hj)) ?_
        exact hframe1 y w (fun j hj => hny j (hj ▸ List.mem_cons_self _ _)) hy

theorem invCore_empty {T : Type} : InvCore (Colony.empty : Colony T) := by
  refine ⟨?_, ?_, ?_, ?_, ?_, ?_, ?_⟩ <;>
    simp [Colony.empty, ColonyIndex.empty]

theorem reachable_inv {T : Type} {c : Colony T} (h : Reachable c) :
    InvCore c ∧ c.index.id_to_index.length < USIZE_MAX := by
  obtain ⟨ops, hlen, hrun⟩ := h
  obtain ⟨h1, h2, _⟩ := run_sound ops Colony.empty c invCore_empty
    (by simp [Colony.empty, ColonyIndex.empty]; omega) hrun
  refine ⟨h1, ?_⟩
  simp only [Colony.empty, ColonyIndex.empty, List.length_nil] at h2
  omega

theorem numLive_eq {T : Type} {c : Colony T} (hc : InvCore c)
    (hb : c.index.id_to_index.length < USIZE_MAX) :
    numLive c.index = c.elements.length := by
  have hnN : c.elements.length ≤ c.index.id_to_index.length := by
    have := hc.count
    omega
  unfold numLive
  have hfilter : (Finset.range c.index.id_to_index.length).filter
      (fun id => (c.index.to_index id).isSome = true ∧ id ∉ c.index.freed) =
      (Finset.range c.index.id_to_index.length).filter
      (fun id => id ∉ c.index.freed) := by
    apply Finset.filter_congr
    intro id hid
    simp only [Finset.mem_range] at hid
    constructor
    · intro hand
      exact hand.2
    · intro hnf
      obtain ⟨s, hA, hs, _⟩ := hc.live_spec id hid hnf
      refine ⟨?_, hnf⟩
      have : c.index.to_index id = some s :=
        ColonyIndex.to_index_eq_some.mpr ⟨hA, by omega⟩
      rw [this]
      rfl
  rw [hfilter]
  have hsub : c.index.freed.toFinset ⊆ Finset.range c.index.id_to_index.length := by
    intro g hg
    simp only [List.mem_toFinset] at hg
    simp only [Finset.mem_range]
    exact hc.freed_lt g hg
  have hdiff : (Finset.range c.index.id_to_index.length).filter
      (fun id => id ∉ c.index.freed) =
      Finset.range c.index.id_to_index.length \ c.index.freed.toFinset := by
    ext g
    simp [Finset.mem_filter, Finset.mem_sdiff, List.mem_toFinset]
  rw [hdiff, Finset.card_sdiff hsub, Finset.card_range,
    List.toFinset_card_of_nodup hc.freed_nodup]
  have := hc.count
  omega


theorem get_none_of_to_index {T : Type} {c : Colony T} {id : Nat}
    (h : c.index.to_index id = none) : c.get id = none := by
  unfold Colony.get
  rw [h]

/-- Claim C1 (refuted by the code — code bug): removal is claimed idempotent,
but removing the same identifier twice in a row panics when the identifier
occupied the last slot.  Concretely, after `insert 42` (identifier 0) a
first `remove 0` succeeds, but — because the tombstone write in
`ColonyIndex::remove` is immediately overwritten in the self-swap case —
the identifier is still mapped, and the second `remove 0` reaches
`elements.len() - 1` on an empty buffer and `index_to_id[...]` /
`swap_remove` out of bounds: a panic (`none`), not a no-op. -/
theorem c1_remove_twice_panics :
    (((Colony.empty : Colony Nat).insert 42).bind
        (fun p => p.2.remove 0)).isSome = true ∧
    ((((Colony.empty : Colony Nat).insert 42).bind
        (fun p => p.2.remove 0)).bind (fun c => c.remove 0)) = none := by
  exact ⟨rfl, rfl⟩

/-- Claim C2 (refuted by the code — code bug): after
`ColonyIndex::remove(target_id, last_slot)` with the target occupying the
last slot, the claim says the target is tombstoned (`to_index` returns
`None`) and `freed` holds only tombstoned identifiers.  On the concrete
index reached by one insertion (`id_to_index = [0]`, `index_to_id = [0]`),
`remove 0 0` leaves `to_index 0 = some 0` (not tombstoned: step 4's
self-overwrite undoes step 3's tombstone) while pushing 0 onto `freed`. -/
theorem c2_last_slot_removal_not_tombstoned :
    (ColonyIndex.remove ⟨[0], [0], []⟩ 0 0).map
      (fun p => (p.2.to_index 0, p.2.freed)) = some (some 0, [0]) := by
  exact rfl

/-- Claim C3 (refuted by the code — code bug): `remove` is claimed to never
panic on any reachable state, but after inserting two elements
(identifiers 0 and 1), removing identifier 1 (the last slot) twice panics:
the first call leaves identifier 1 non-tombstoned, so the second call
re-enters the swap path and calls `swap_remove` out of bounds (and
`elements.len() - 1` underflows whenever the buffer is already empty). -/
theorem c3_remove_can_panic :
    ((((Colony.empty : Colony Nat).insert 1).bind
        (fun p => p.2.insert 2)).bind (fun p => p.2.remove 1)).isSome = true ∧
    (((((Colony.empty : Colony Nat).insert 1).bind
        (fun p => p.2.insert 2)).bind (fun p => p.2.remove 1)).bind
      (fun c => c.remove 1)) = none := by
  exact ⟨rfl, rfl⟩

/-- Claim C8, counterexample to the clause "no previously issued identifier
is reused afterwards": inserting into the empty colony issues identifier 0;
after `clear`, the very next insertion issues identifier 0 again — the
previously issued identifier is re-issued (allocation restarts from zero,
exactly as the claim's own parenthetical says). -/
theorem c8_id_reused_after_clear :
    ((Colony.empty : Colony Nat).insert 42).map Prod.fst = some 0 ∧
    (((Colony.empty : Colony Nat).insert 42).map (fun p => p.2.clear)).bind
      (fun c => (c.insert 7).map Prod.fst) = some 0 := by
  exact ⟨rfl, rfl⟩

/-- Claim C8 as amended: after `clear()` the length is 0, every identifier
(in particular every previously issued one) resolves to `none`, the free
list is discarded, identifier allocation restarts from zero (the next
insertion returns identifier 0, so previously issued identifier values may
be re-issued as fresh identifiers), and `clear` is idempotent. -/
theorem c8_clear_resets {T : Type} (c : Colony T) (v : T) :
    (c.clear).elements.length = 0 ∧
    (∀ id, (c.clear).get id = none) ∧
    (c.clear).index.freed = [] ∧
    ((c.clear).insert v).map Prod.fst = some 0 ∧
    (c.clear).clear = c.clear := by
  refine ⟨rfl, ?_, rfl, rfl, rfl⟩
  intro id
  refine get_none_of_to_index ?_
  rw [ColonyIndex.to_index_eq_none]
  left
  show ([] : List Nat)[id]? = none
  simp

/-- Claim C4 (confirmed): after removing a live identifier `x` from a
reachable colony, every other identifier `y` that was resolving to a value
still resolves to exactly that value — removal changes only `x`'s mapping
(values may move between slots, the identifier-to-value association of the
others does not change). -/
theorem c4_remove_frame {T : Type} {c c' : Colony T} {x y : Nat} {vx vy : T}
    (hreach : Reachable c) (_hx : c.get x = some vx)
    (hrem : c.remove x = some c') (hyx : y ≠ x) (hy : c.get y = some vy) :
    c'.get y = some vy := by
  obtain ⟨hinv, hb⟩ := reachable_inv hreach
  exact (remove_sound hinv hb hrem).2.2 y vy hyx hy

/-- Witness for C4: in the colony holding 10 (identifier 0) and 20
(identifier 1), removing identifier 0 leaves identifier 1 resolving to
20. -/
theorem c4_witness :
    (Colony.mk ⟨[USIZE_MAX, 0], [1, 1], [0]⟩ [20] : Colony Nat).get 1 =
      some 20 :=
  @c4_remove_frame Nat
    (Colony.mk ⟨[0, 1], [0, 1], []⟩ [10, 20])
    (Colony.mk ⟨[USIZE_MAX, 0], [1, 1], [0]⟩ [20])
    0 1 10 20
    ⟨[Op.insert 10, Op.insert 20], by decide, rfl⟩
    rfl rfl (by decide) rfl

/-- Claim C5 (confirmed, with "live" read as the spec defines it: issued,
not tombstoned and not in the free list): in every reachable colony the
element buffer length equals the number of live identifiers, every live
identifier resolves to a slot strictly below that length, and every slot
below the length is the slot of some live identifier — the occupied slots
are exactly the gap-free range from 0 to the length. -/
theorem c5_density {T : Type} {c : Colony T} (h : Reachable c) :
    c.elements.length = numLive c.index ∧
    (∀ id s, id ∉ c.index.freed → c.index.to_index id = some s →
      s < c.elements.length) ∧
    (∀ s, s < c.elements.length → ∃ id, id ∉ c.index.freed ∧
      c.index.to_index id = some s) := by
  obtain ⟨hinv, hb⟩ := reachable_inv h
  have hnN : c.elements.length ≤ c.index.id_to_index.length := by
    have := hinv.count
    omega
  refine ⟨(numLive_eq hinv hb).symm, ?_, ?_⟩
  · intro id s hnf hti
    obtain ⟨hentry, _⟩ := ColonyIndex.to_index_eq_some.mp hti
    have hidN : id < c.index.id_to_index.length :=
      (List.getElem?_eq_some_iff.mp hentry).1
    obtain ⟨s2, he2, hlt2, _⟩ := hinv.live_spec id hidN hnf
    rw [hentry] at he2
    obtain rfl : s = s2 := Option.some.inj he2
    exact hlt2
  · intro s hs
    obtain ⟨id, _, hnf, hA⟩ := hinv.occ_spec s hs
    exact ⟨id, hnf, ColonyIndex.to_index_eq_some.mpr ⟨hA, by omega⟩⟩

/-- Witness for C5 at the reachable one-element colony. -/
theorem c5_witness :
    (Colony.mk ⟨[0], [0], []⟩ [5] : Colony Nat).elements.length =
      numLive (Colony.mk ⟨[0], [0], []⟩ [5] : Colony Nat).index :=
  (@c5_density Nat (Colony.mk ⟨[0], [0], []⟩ [5])
    ⟨[Op.insert 5], by decide, rfl⟩).1

/-- Claim C6 (confirmed): for every program of public operations,
immediately after `id = insert(v)` the lookup `get id` returns `v`, and it
keeps returning `v` across any further panic-free operations that do not
remove `id` itself.  The arithmetic bound says the whole program fits the
machine (fewer than `usize::MAX` operations). -/
theorem c6_round_trip {T : Type} {ops0 ops : List (Op T)} {c c1 c2 : Colony T}
    {v : T} {id : Nat}
    (hlen : ops0.length + ops.length + 1 < USIZE_MAX)
    (h0 : runOps Colony.empty ops0 = some c)
    (hins : c.insert v = some (id, c1))
    (hnorem : ∀ j, Op.remove j ∈ ops → j ≠ id)
    (hrun : runOps c1 ops = some c2) :
    c1.get id = some v ∧ c2.get id = some v := by
  obtain ⟨hc, hlenc, _⟩ := run_sound ops0 Colony.empty c invCore_empty
    (by simp only [Colony.empty, ColonyIndex.empty, List.length_nil]; omega) h0
  simp only [Colony.empty, ColonyIndex.empty, List.length_nil] at hlenc
  have hb : c.index.id_to_index.length < USIZE_MAX := by omega
  obtain ⟨id2, c1b, hins2, hinv1, hlen1, _, hget1, _⟩ := insert_sound v hc hb
  rw [hins] at hins2
  simp only [Option.some.injEq, Prod.mk.injEq] at hins2
  obtain ⟨hid, hc1⟩ := hins2
  subst hid
  subst hc1
  refine ⟨hget1, ?_⟩
  obtain ⟨_, _, hframe⟩ := run_sound ops c1 c2 hinv1 (by omega) hrun
  exact hframe id v hnorem hget1

/-- Witness for C6: insert 42 into the empty colony (identifier 0), then
insert 99; identifier 0 resolves to 42 both immediately and after the
further insertion. -/
theorem c6_witness :
    (Colony.mk ⟨[0], [0], []⟩ [42] : Colony Nat).get 0 = some 42 ∧
    (Colony.mk ⟨[0, 1], [0, 1], []⟩ [42, 99] : Colony Nat).get 0 = some 42 :=
  @c6_round_trip Nat [] [Op.insert 99] Colony.empty
    (Colony.mk ⟨[0], [0], []⟩ [42])
    (Colony.mk ⟨[0, 1], [0, 1], []⟩ [42, 99])
    42 0 (by decide) rfl rfl
    (by intro j hj; simp at hj) rfl

/-- Claim C7 (confirmed, with "live" read as the spec defines it): in every
reachable colony, distinct live identifiers resolve to distinct slots, the
two tables are mutually inverse on the occupied slots
(`id_to_index[index_to_id[s]] = s` for every occupied `s`), and every live
identifier is the registered occupant of its slot
(`index_to_id[id_to_index[i]] = i`). -/
theorem c7_no_aliasing {T : Type} {c : Colony T} (h : Reachable c) :
    (∀ i j si sj, i ∉ c.index.freed → j ∉ c.index.freed → i ≠ j →
      c.index.to_index i = some si → c.index.to_index j = some sj →
      si ≠ sj) ∧
    (∀ s, s < c.elements.length →
      (c.index.index_to_id[s]?).bind
        (fun id => c.index.id_to_index[id]?) = some s) ∧
    (∀ i si, i ∉ c.index.freed → c.index.to_index i = some si →
      c.index.index_to_id[si]? = some i) := by
  obtain ⟨hinv, hb⟩ := reachable_inv h
  have hback : ∀ i si, i ∉ c.index.freed → c.index.to_index i = some si →
      c.index.index_to_id[si]? = some i := by
    intro i si hnf hti
    obtain ⟨hentry, _⟩ := ColonyIndex.to_index_eq_some.mp hti
    have hiN : i < c.index.id_to_index.length :=
      (List.getElem?_eq_some_iff.mp hentry).1
    obtain ⟨s2, he2, _, hB⟩ := hinv.live_spec i hiN hnf
    rw [hentry] at he2
    obtain rfl : si = s2 := Option.some.inj he2
    exact hB
  refine ⟨?_, ?_, hback⟩
  · intro i j si sj hif hjf hij hti htj hss
    subst hss
    have h1 := hback i si hif hti
    have h2 := hback j si hjf htj
    rw [h1] at h2
    exact hij (Option.some.inj h2)
  · intro s hs
    obtain ⟨id, hB, _, hA⟩ := hinv.occ_spec s hs
    rw [hB]
    simpa using hA

/-- Witness for C7 at the reachable two-element colony: identifier 0 is the
registered occupant of its resolved slot 0. -/
theorem c7_witness :
    (Colony.mk ⟨[0, 1], [0, 1], []⟩ [10, 20] : Colony Nat).index.index_to_id[0]? =
      some 0 :=
  (@c7_no_aliasing Nat (Colony.mk ⟨[0, 1], [0, 1], []⟩ [10, 20])
    ⟨[Op.insert 10, Op.insert 20], by decide, rfl⟩).2.2 0 0
    (by decide) (by decide)

/-- Claim C9 (confirmed): `ColonyIndex::insert(slot)` pops and returns the
most recently freed identifier when the free list is non-empty, writing
`id_to_index[i] = slot` and `index_to_id[slot] = i` in place (the
hypotheses are the in-bounds conditions under which those two writes do not
panic, always satisfied in reachable states); otherwise it returns a fresh
identifier equal to the current length of `id_to_index`, appending `slot`
to `id_to_index` and the fresh identifier to `index_to_id`. -/
theorem c9_index_insert_spec (ci : ColonyIndex) (slot : Nat) :
    (∀ i rest, ci.freed = i :: rest →
      i < ci.id_to_index.length → slot < ci.index_to_id.length →
      ci.insert slot = some (i,
        ⟨ci.id_to_index.set i slot, ci.index_to_id.set slot i, rest⟩)) ∧
    (ci.freed = [] →
      ci.insert slot = some (ci.id_to_index.length,
        ⟨ci.id_to_index ++ [slot], ci.index_to_id ++ [ci.id_to_index.length],
          []⟩)) := by
  constructor
  · intro i rest hf hi hs
    simp [ColonyIndex.insert, hf, setF_some hi, setF_some hs]
  · intro hf
    simp [ColonyIndex.insert, hf]

/-- Witness for C9: one reuse insertion (popping freed identifier 1) and
one fresh insertion (issuing identifier 1). -/
theorem c9_witness :
    ColonyIndex.insert ⟨[5, 7], [0, 1], [1]⟩ 0 =
      some (1, ⟨[5, 0], [1, 1], []⟩) ∧
    ColonyIndex.insert ⟨[0], [0], []⟩ 1 =
      some (1, ⟨[0, 1], [0, 1], []⟩) := by
  constructor
  · have h := (c9_index_insert_spec ⟨[5, 7], [0, 1], [1]⟩ 0).1 1 [] rfl
      (by decide) (by decide)
    simpa using h
  · have h := (c9_index_insert_spec ⟨[0], [0], []⟩ 1).2 rfl
    simpa using h

/-- Claim C10 (confirmed): `get` and `get_mut` are checked end to end — each
equals the checked table lookup (`to_index`) followed by the checked buffer
access, both total functions returning an `Option`, so they never panic;
in particular an identifier whose stored slot is at or beyond the current
buffer length (a stale entry left behind by the last-slot removal bug)
yields `none` rather than a fault. -/
theorem c10_get_checked {T : Type} (c : Colony T) (id : Nat) :
    c.get id = (c.index.to_index id).bind (fun s => c.elements[s]?) ∧
    c.get_mut id = (c.index.to_index id).bind (fun s => c.elements[s]?) ∧
    ∀ s, c.index.to_index id = some s → c.elements.length ≤ s →
      c.get id = none ∧ c.get_mut id = none := by
  have h1 : c.get id = (c.index.to_index id).bind (fun s => c.elements[s]?) := by
    unfold Colony.get
    cases c.index.to_index id <;> simp
  have h2 : c.get_mut id =
      (c.index.to_index id).bind (fun s => c.elements[s]?) := by
    unfold Colony.get_mut
    cases c.index.to_index id <;> simp
  refine ⟨h1, h2, ?_⟩
  intro s hs hlen
  rw [h1, h2, hs]
  simp [List.getElem?_eq_none hlen]

/-- Witness for C10 at the state reached by inserting 42 and removing
identifier 0: the stale entry still maps identifier 0 to slot 0 while the
buffer is empty, and both accessors answer `none`. -/
theorem c10_witness :
    (Colony.mk ⟨[0], [0], [0]⟩ [] : Colony Nat).get 0 = none ∧
    (Colony.mk ⟨[0], [0], [0]⟩ [] : Colony Nat).get_mut 0 = none :=
  (c10_get_checked (Colony.mk ⟨[0], [0], [0]⟩ []) 0).2.2 0 rfl (by decide)

/-- Witness for the amended C8 at a concrete one-element colony: after
`clear` the length is 0 and the next insertion returns identifier 0. -/
theorem c8_witness :
    ((Colony.mk ⟨[0], [0], []⟩ [42] : Colony Nat).clear).elements.length = 0 ∧
    (((Colony.mk ⟨[0], [0], []⟩ [42] : Colony Nat).clear).insert 7).map
      Prod.fst = some 0 :=
  ⟨(c8_clear_resets (Colony.mk ⟨[0], [0], []⟩ [42]) 7).1,
   (c8_clear_resets (Colony.mk ⟨[0], [0], []⟩ [42]) 7).2.2.2.1⟩
